import Mathlib

/-
Verification development for the gtx note-indexing utility (src/main.rs).

The Rust source is shallowly embedded: strings are Lean Strings (lists of
Chars), Rust HashSet iteration order and HashMap contents are made explicit
as lists, usize values are Nat, and fallible paths (process exit, panics,
the error-propagation operator) are modelled with Except / Option.
-/

namespace Gtx

/-! ### Character-level string helpers

Rust str operations used by the program, modelled on the character list
underlying a Lean String.  Rust operates on Unicode scalar values for
the operations involved here; Char in Lean is a Unicode scalar value.
-/

/-- Model of Rust str::split_whitespace, accumulator-passing form.
The accumulator holds the current (reversed) in-progress token.
Tokens are the maximal runs of non-whitespace characters; empty tokens
never occur. -/
def splitWSAux : List Char → List Char → List String
  | [], acc => if acc.isEmpty then [] else [String.mk acc.reverse]
  | c :: rest, acc =>
    if c.isWhitespace then
      if acc.isEmpty then splitWSAux rest []
      else String.mk acc.reverse :: splitWSAux rest []
    else splitWSAux rest (c :: acc)

/-- Model of Rust str::split_whitespace on a string. -/
def splitWhitespaceM (s : String) : List String :=
  splitWSAux s.data []

/-- Model of Rust str::trim: drop leading and trailing whitespace. -/
def trimM (s : String) : String :=
  String.mk (((s.data.dropWhile Char.isWhitespace).reverse.dropWhile Char.isWhitespace).reverse)

/-- Model of Rust str::to_lowercase (the program only ever has ASCII keys,
where Rust lowercasing agrees with Char.toLower character by character). -/
def toLowerM (s : String) : String :=
  String.mk (s.data.map Char.toLower)

/-- Key normalization used by Index::add_node: i.trim().to_lowercase(). -/
def normalizeKey (s : String) : String :=
  toLowerM (trimM s)

/-- Model of Rust str::starts_with. -/
def startsWithM (s p : String) : Bool :=
  p.data.isPrefixOf s.data

/-- Model of Rust str::strip_prefix in the places the program uses it:
always guarded by a starts_with check, so the model just drops the
prefix length. -/
def stripPrefixM (s p : String) : String :=
  String.mk (s.data.drop p.data.length)

/-- Lexicographic comparison of character lists by code point, the order
Rust Ord for String induces (byte-wise UTF-8 order coincides with code
point order). -/
def listCharLe : List Char → List Char → Bool
  | [], _ => true
  | _ :: _, [] => false
  | a :: as, b :: bs =>
    if a.toNat < b.toNat then true
    else if b.toNat < a.toNat then false
    else listCharLe as bs

/-- Models a <= b for Rust Strings (String::cmp). -/
def strLe (a b : String) : Bool :=
  listCharLe a.data b.data

/-- The largest usize value on the 64-bit targets the program runs on. -/
def usizeMax : Nat := 2 ^ 64 - 1

/-- Model of Rust usize::from_str as used by str::parse::<usize>():
an optional leading plus sign followed by at least one ASCII digit, and
the resulting value must fit in usize — a digit string denoting a value
above usizeMax fails with a positive-overflow error. -/
def parseUsize (s : String) : Option Nat :=
  let l := match s.data with
    | '+' :: rest => rest
    | l => l
  if l.isEmpty then none
  else if l.all Char.isDigit then
    let v := l.foldl (fun acc c => 10 * acc + (c.toNat - 48)) 0
    if v ≤ usizeMax then some v else none
  else none

/-- Number of consecutive newline characters at the very end of a string. -/
def trailingNewlineCount (s : String) : Nat :=
  (s.data.reverse.takeWhile (fun c => c = '\n')).length

/-- Concatenation of a list of strings, in order. -/
def strConcat (l : List String) : String :=
  l.foldr (fun a b => a ++ b) ""

/-! ### The inverted index (struct Index in src/main.rs)

The Rust struct holds a HashSet of keys and a HashMap from key to a
Vec of (file_name, file_title, extra_info) triples.  The HashSet is
modelled as a duplicate-free list (insertion order is irrelevant and
iteration order is made explicit where main iterates over it), the
HashMap as an association list. -/

/-- A posting: (file_name, file_title, extra_info), mirroring the Rust
tuple (String, String, String). -/
abbrev NodeRef := String × String × String

/-- Model of struct Index. -/
structure Index where
  inputs : List String
  map : List (String × List NodeRef)
deriving DecidableEq

/-- Index::new. -/
def Index.new : Index :=
  { inputs := [], map := [] }

/-- Model of HashSet::insert: add the key if not already present. -/
def insertInput (l : List String) (k : String) : List String :=
  if k ∈ l then l else l ++ [k]

/-- Model of map.entry(k).or_default().push(r) on the association list. -/
def mapPush (m : List (String × List NodeRef)) (k : String) (r : NodeRef) :
    List (String × List NodeRef) :=
  match m with
  | [] => [(k, [r])]
  | (k0, rs) :: rest =>
    if k0 = k then (k0, rs ++ [r]) :: rest
    else (k0, rs) :: mapPush rest k r

/-- Lookup in the association list modelling HashMap::get. -/
def mapFind : List (String × List NodeRef) → String → Option (List NodeRef)
  | [], _ => none
  | (k0, rs) :: rest, k => if k0 = k then some rs else mapFind rest k

/-- Body of the loop in Index::add_node for a single raw key i:
normalize (trim + lowercase); if nonempty, insert into the key set and
append the posting to the key's entry. -/
def Index.addKey (idx : Index) (file_name file_title extra_info : String) (i : String) :
    Index :=
  let normalized_i := normalizeKey i
  if normalized_i = "" then idx
  else
    { inputs := insertInput idx.inputs normalized_i,
      map := mapPush idx.map normalized_i (file_name, file_title, extra_info) }

/-- Index::add_node: iterate the loop body over the input vector. -/
def Index.add_node (idx : Index) (file_name file_title extra_info : String)
    (input : List String) : Index :=
  input.foldl (fun a i => a.addKey file_name file_title extra_info i) idx

/-- Index::get_files_by_i. -/
def Index.get_files_by_i (idx : Index) (i : String) : Option (List NodeRef) :=
  mapFind idx.map (normalizeKey i)

/-- Index::get_i_count: map_or(0, |files| files.len()). -/
def Index.get_i_count (idx : Index) (i : String) : Nat :=
  match idx.get_files_by_i i with
  | none => 0
  | some files => files.length

/-- Index::get_inputs. -/
def Index.get_inputs (idx : Index) : List String :=
  idx.inputs

/-- One call to the conceptual add operation of the spec: a raw key plus
the document data. -/
structure AddCall where
  rawKey : String
  fname : String
  title : String
  extra : String
deriving DecidableEq

/-- Apply a sequence of single-key add operations to an index. -/
def applyAdds (idx : Index) (calls : List AddCall) : Index :=
  calls.foldl (fun a c => a.addKey c.fname c.title c.extra c.rawKey) idx

/-! ### Basic lemmas about the index -/

theorem mapFind_mapPush_eq (m : List (String × List NodeRef)) (k : String) (r : NodeRef) :
    mapFind (mapPush m k r) k = some ((mapFind m k).getD [] ++ [r]) := by
  induction m with
  | nil => simp [mapPush, mapFind]
  | cons hd tl ih =>
    obtain ⟨k0, rs⟩ := hd
    by_cases h : k0 = k
    · subst h
      simp [mapPush, mapFind]
    · simp [mapPush, mapFind, h, ih]

theorem mapFind_mapPush_ne (m : List (String × List NodeRef)) (k k' : String) (r : NodeRef)
    (h : k ≠ k') : mapFind (mapPush m k r) k' = mapFind m k' := by
  induction m with
  | nil => simp [mapPush, mapFind, h]
  | cons hd tl ih =>
    obtain ⟨k0, rs⟩ := hd
    by_cases h0 : k0 = k
    · subst h0
      simp [mapPush, mapFind, h]
    · simp [mapPush, mapFind, h0, ih]

theorem get_i_count_addKey_eq (idx : Index) (f t e x i : String)
    (hx : normalizeKey x ≠ "") (hi : normalizeKey i = normalizeKey x) :
    (idx.addKey f t e i).get_i_count x = idx.get_i_count x + 1 := by
  unfold Index.addKey
  rw [hi]
  rw [if_neg hx]
  unfold Index.get_i_count Index.get_files_by_i
  simp only
  rw [mapFind_mapPush_eq]
  cases h : mapFind idx.map (normalizeKey x) <;> simp [h]

theorem get_i_count_applyAdds (calls : List AddCall) (idx : Index) (x : String)
    (hx : normalizeKey x ≠ "")
    (hcalls : ∀ c ∈ calls, normalizeKey c.rawKey = normalizeKey x) :
    (applyAdds idx calls).get_i_count x = idx.get_i_count x + calls.length := by
  induction calls generalizing idx with
  | nil => simp [applyAdds]
  | cons c rest ih =>
    have hc : normalizeKey c.rawKey = normalizeKey x := hcalls c (List.mem_cons_self c rest)
    have hrest : ∀ c' ∈ rest, normalizeKey c'.rawKey = normalizeKey x :=
      fun c' hc' => hcalls c' (List.mem_cons_of_mem c hc')
    show (applyAdds (idx.addKey c.fname c.title c.extra c.rawKey) rest).get_i_count x = _
    rw [ih (idx.addKey c.fname c.title c.extra c.rawKey) hrest,
      get_i_count_addKey_eq idx c.fname c.title c.extra x c.rawKey hx hc]
    simp only [List.length_cons]
    omega

theorem get_i_count_eq_zero_iff (idx : Index) (x : String)
    (hsync : ∀ k rs, mapFind idx.map k = some rs → rs ≠ []) :
    idx.get_i_count x = 0 ↔ idx.get_files_by_i x = none := by
  unfold Index.get_i_count
  cases h : idx.get_files_by_i x with
  | none => simp
  | some rs =>
    have : rs ≠ [] := hsync (normalizeKey x) rs h
    simp [h, List.length_eq_zero]
    exact this

/-! ### The synchronization invariant (claim C9 support) -/

/-- Keys of the association list are synchronized with the key set, and
no entry is empty. -/
def Synced (idx : Index) : Prop :=
  (∀ k, k ∈ idx.inputs ↔ ∃ rs, mapFind idx.map k = some rs) ∧
  (∀ k rs, mapFind idx.map k = some rs → rs ≠ []) ∧
  ("" ∉ idx.inputs)

theorem synced_new : Synced Index.new := by
  refine ⟨fun k => ?_, fun k rs h => ?_, ?_⟩
  · simp [Index.new, mapFind]
  · simp [Index.new, mapFind] at h
  · simp [Index.new]

theorem mem_insertInput (l : List String) (k k' : String) :
    k' ∈ insertInput l k ↔ k' ∈ l ∨ k' = k := by
  unfold insertInput
  by_cases h : k ∈ l
  · simp only [if_pos h]
    constructor
    · exact Or.inl
    · rintro (h' | rfl)
      · exact h'
      · exact h
  · simp [if_neg h, List.mem_append]

theorem synced_addKey (idx : Index) (f t e i : String) (h : Synced idx) :
    Synced (idx.addKey f t e i) := by
  obtain ⟨hsync, hne, hemp⟩ := h
  unfold Index.addKey
  by_cases h0 : normalizeKey i = ""
  · simpa [h0] using ⟨hsync, hne, hemp⟩
  · simp only [if_neg h0]
    refine ⟨fun k => ?_, fun k rs hk => ?_, ?_⟩
    · rw [mem_insertInput]
      by_cases hk : k = normalizeKey i
      · subst hk
        simp [mapFind_mapPush_eq]
      · rw [mapFind_mapPush_ne _ _ _ _ (fun hh => hk hh.symm)]
        simp only [hsync k]
        constructor
        · rintro (h' | h')
          · exact h'
          · exact absurd h' hk
        · exact Or.inl
    · by_cases hk' : k = normalizeKey i
      · subst hk'
        rw [mapFind_mapPush_eq] at hk
        simp at hk
        subst hk
        simp
      · rw [mapFind_mapPush_ne _ _ _ _ (fun hh => hk' hh.symm)] at hk
        exact hne k rs hk
    · rw [mem_insertInput]
      rintro (h' | h')
      · exact hemp h'
      · exact h0 h'.symm

theorem synced_add_node (idx : Index) (f t e : String) (input : List String)
    (h : Synced idx) : Synced (idx.add_node f t e input) := by
  unfold Index.add_node
  induction input generalizing idx with
  | nil => simpa using h
  | cons a l ih => exact ih (idx.addKey f t e a) (synced_addKey idx f t e a h)

/-- A full add_node call as made by the program: document data plus the
vector of raw keys. -/
structure NodeCall where
  fname : String
  title : String
  extra : String
  input : List String
deriving DecidableEq

/-- Apply a sequence of add_node calls to an index. -/
def applyNodeCalls (idx : Index) (ops : List NodeCall) : Index :=
  ops.foldl (fun a c => a.add_node c.fname c.title c.extra c.input) idx

theorem synced_applyNodeCalls (ops : List NodeCall) (idx : Index) (h : Synced idx) :
    Synced (applyNodeCalls idx ops) := by
  induction ops generalizing idx with
  | nil => simpa [applyNodeCalls] using h
  | cons c rest ih =>
    exact ih (idx.add_node c.fname c.title c.extra c.input)
      (synced_add_node idx c.fname c.title c.extra c.input h)

theorem normalizeKey_of_trim_empty (raw : String) (h : trimM raw = "") :
    normalizeKey raw = "" := by
  unfold normalizeKey toLowerM
  rw [h]
  rfl

theorem addKey_noop_of_trim_empty (idx : Index) (f t e raw : String)
    (h : trimM raw = "") : idx.addKey f t e raw = idx := by
  unfold Index.addKey
  simp [normalizeKey_of_trim_empty raw h]

/-! ### Claim C8 -/

/-- Counterexample to claim C8 as stated: the claim quantifies over every
raw key x, but a whitespace-only raw key normalizes to the empty string
and is silently dropped by Index::add_node, so after one add call with
raw key a single space, count_of of that key is 0, not 1. -/
theorem claim_C8_counterexample :
    (applyAdds Index.new [⟨" ", "f", "t", ""⟩]).get_i_count " " = 0 ∧ (0 : Nat) ≠ 1 := by
  constructor
  · decide
  · decide

/-- Claim C8 (amended): for every raw key x whose normalization is nonempty
and every n, after exactly n add calls whose raw keys normalize to
normalize x (from a fresh index), count_of x equals n; for n = 0 the
posting list is absent, and for positive n it exists with length exactly n
(duplicates kept, nothing deduplicated, no implicit cap). -/
theorem claim_C8_posting_count (x : String) (calls : List AddCall)
    (hx : normalizeKey x ≠ "")
    (hcalls : ∀ c ∈ calls, normalizeKey c.rawKey = normalizeKey x) :
    (applyAdds Index.new calls).get_i_count x = calls.length ∧
    (calls = [] → (applyAdds Index.new calls).get_files_by_i x = none) ∧
    (calls ≠ [] → ∃ rs, (applyAdds Index.new calls).get_files_by_i x = some rs ∧
      rs.length = calls.length) := by
  have hcount : (applyAdds Index.new calls).get_i_count x = calls.length := by
    rw [get_i_count_applyAdds calls Index.new x hx hcalls]
    simp [Index.get_i_count, Index.get_files_by_i, Index.new, mapFind]
  refine ⟨hcount, fun hnil => ?_, fun hne => ?_⟩
  · subst hnil
    simp [applyAdds, Index.get_files_by_i, Index.new, mapFind]
  · cases h : (applyAdds Index.new calls).get_files_by_i x with
    | none =>
      exfalso
      have : (applyAdds Index.new calls).get_i_count x = 0 := by
        simp [Index.get_i_count, h]
      rw [hcount] at this
      exact hne (List.length_eq_zero.mp this)
    | some rs =>
      refine ⟨rs, rfl, ?_⟩
      have : (applyAdds Index.new calls).get_i_count x = rs.length := by
        simp [Index.get_i_count, h]
      omega

/-- Witness for claim C8 at a concrete input: two add calls whose raw keys
both normalize to the key x, then count_of is 2 and the posting list has
length 2. -/
theorem claim_C8_posting_count_witness :
    (applyAdds Index.new [⟨"x", "f", "t", ""⟩, ⟨" X ", "g", "u", ""⟩]).get_i_count "X" = 2 := by
  exact (claim_C8_posting_count "X" [⟨"x", "f", "t", ""⟩, ⟨" X ", "g", "u", ""⟩]
    (by decide) (by decide)).1

/-! ### Claim C9 -/

/-- Claim C9: after any sequence of add_node operations from a fresh index,
the key set and the postings map stay synchronized (a key is in the key
set iff it has an entry in the postings map), the empty string is never a
key, and an add whose raw key trims to the empty string leaves the index
completely unchanged. -/
theorem claim_C9_synchronized (ops : List NodeCall) :
    (∀ k, k ∈ (applyNodeCalls Index.new ops).get_inputs ↔
      ∃ rs, mapFind (applyNodeCalls Index.new ops).map k = some rs) ∧
    "" ∉ (applyNodeCalls Index.new ops).get_inputs ∧
    (∀ (idx : Index) (f t e raw : String), trimM raw = "" →
      idx.addKey f t e raw = idx ∧ idx.add_node f t e [raw] = idx) := by
  have h := synced_applyNodeCalls ops Index.new synced_new
  obtain ⟨hsync, _, hemp⟩ := h
  refine ⟨hsync, hemp, fun idx f t e raw hraw => ?_⟩
  have h1 := addKey_noop_of_trim_empty idx f t e raw hraw
  exact ⟨h1, by simpa [Index.add_node] using h1⟩

/-- Witness for claim C9 at concrete inputs: after one add_node call the
empty string is not a key, and adding a whitespace-only raw key to the
fresh index leaves it unchanged. -/
theorem claim_C9_synchronized_witness :
    "" ∉ (applyNodeCalls Index.new [⟨"f", "t", "", ["a"]⟩]).get_inputs ∧
    Index.new.add_node "f" "t" "" [" "] = Index.new := by
  refine ⟨(claim_C9_synchronized [⟨"f", "t", "", ["a"]⟩]).2.1, ?_⟩
  exact ((claim_C9_synchronized []).2.2 Index.new "f" "t" "" " " (by decide)).2

/-! ### The column formatter (struct ColumnFormatter in src/main.rs) -/

/-- Model of struct ColumnFormatter. -/
structure ColumnFormatter where
  columns_per_row : Nat
  column_padding : Nat
deriving DecidableEq

/-- ColumnFormatter::new: the default column padding is 2. -/
def ColumnFormatter.new (columns_per_row : Nat) : ColumnFormatter :=
  { columns_per_row := columns_per_row, column_padding := 2 }

/-- ColumnFormatter::with_padding. -/
def ColumnFormatter.with_padding (f : ColumnFormatter) (padding : Nat) : ColumnFormatter :=
  { f with column_padding := padding }

/-- A run of n space characters, as produced by the repeat call on a space. -/
def spacesStr (n : Nat) : String :=
  String.mk (List.replicate n ' ')

/-- Left-justified space padding of a word to a given width, as produced
by the width-directed format call in ColumnFormatter::format; a word at
least as wide as the target width is left unchanged. -/
def leftJustify (word : String) (width : Nat) : String :=
  word ++ spacesStr (width - word.length)

/-- The col_widths loop of ColumnFormatter::format: starting from a vector
of zeros of length columns_per_row, for each word at position i update
entry i mod columns_per_row to the maximum of itself and the word length. -/
def colWidthsCalc (cols : Nat) (words : List String) : List Nat :=
  words.enum.foldl
    (fun ws p => ws.set (p.1 % cols) (max (ws.getD (p.1 % cols) 0) p.2.length))
    (List.replicate cols 0)

/-- The output-building loop of ColumnFormatter::format: each word is
left-justified to its column width and followed either by the padding
(when its column index is below columns_per_row - 1) or by a newline. -/
def buildOutput (cols pad : Nat) (widths : List Nat) (words : List String) : String :=
  words.enum.foldl
    (fun output p =>
      let col_index := p.1 % cols
      let output := output ++ leftJustify p.2 (widths.getD col_index 0)
      if col_index < cols - 1 then output ++ spacesStr pad
      else output ++ "\n")
    ""

/-- ColumnFormatter::format after the whitespace split: empty word list
gives the empty string; otherwise build the output and append a final
newline unless the output already ends with one. -/
def ColumnFormatter.formatTokens (f : ColumnFormatter) (words : List String) : String :=
  if words.isEmpty then ""
  else
    let col_widths := colWidthsCalc f.columns_per_row words
    let output := buildOutput f.columns_per_row f.column_padding col_widths words
    if output.data.getLast? = some '\n' then output
    else output ++ "\n"

/-- ColumnFormatter::format: split the input on whitespace, then format. -/
def ColumnFormatter.format (f : ColumnFormatter) (input : String) : String :=
  f.formatTokens (splitWhitespaceM input)

/-! ### Specification-side description of the formatter (claim C1)

These definitions follow the words of the specification, to be compared
with the source translation above: tokens are laid out in rows of
columnsPerRow tokens, each column is as wide as its widest token, tokens
are left-justified with the padding between columns and a line break
after the last column of a row, and the output ends with exactly one
trailing line break. -/

/-- Modelled from the spec: the maximum token width among all tokens
assigned to column c, a token at position i being assigned to column
i mod columnsPerRow. -/
def specColWidth (cols : Nat) (words : List String) (c : Nat) : Nat :=
  (words.enum.filterMap
    (fun p => if p.1 % cols = c then some p.2.length else none)).foldr max 0

/-- Fuel-driven chunking of the token stream into rows of n tokens. -/
def chunksAux (n : Nat) : Nat → List String → List (List String)
  | _, [] => []
  | 0, _ :: _ => []
  | fuel + 1, a :: l => ((a :: l).take n) :: chunksAux n fuel ((a :: l).drop n)

/-- The rows of the layout: the token stream cut into rows of n tokens
(the last row possibly shorter). -/
def chunksOf (n : Nat) (l : List String) : List (List String) :=
  chunksAux n l.length l

/-- Modelled from the spec: one rendered cell of a row; the token in
column j is left-justified to the column width and followed by a line
break when j is the last column of the row, by the padding otherwise. -/
def specCell (cols pad : Nat) (width : Nat → Nat) (p : Nat × String) : String :=
  leftJustify p.2 (width p.1) ++ (if p.1 = cols - 1 then "\n" else spacesStr pad)

/-- Modelled from the spec: a rendered row. -/
def specRenderRow (cols pad : Nat) (width : Nat → Nat) (row : List String) : String :=
  strConcat (row.enum.map (specCell cols pad width))

/-- Modelled from the spec: the column formatter contract of section 4.3.
Empty input gives the empty string; otherwise the rows are rendered in
order and the output is guaranteed to end with a trailing line break
(which the row rendering already provides exactly when the last row is
full, i.e. when the token count is divisible by columnsPerRow). -/
def formatColumnsSpec (cols pad : Nat) (words : List String) : String :=
  if words = [] then ""
  else
    let body := strConcat ((chunksOf cols words).map
      (specRenderRow cols pad (specColWidth cols words)))
    if words.length % cols = 0 then body else body ++ "\n"

/-- The cell a position-indexed token contributes in the flat (unchunked)
reading of the output-building loop. -/
def flatCell (cols pad : Nat) (width : Nat → Nat) (p : Nat × String) : String :=
  leftJustify p.2 (width (p.1 % cols)) ++
    (if p.1 % cols < cols - 1 then spacesStr pad else "\n")

/-- A token produced by whitespace splitting: nonempty and free of
whitespace characters. -/
def goodToken (w : String) : Prop :=
  w.data ≠ [] ∧ ∀ c ∈ w.data, c.isWhitespace = false

instance : DecidablePred goodToken :=
  fun w => inferInstanceAs (Decidable (w.data ≠ [] ∧ ∀ c ∈ w.data, c.isWhitespace = false))

/-! ### String concatenation lemmas -/

theorem strConcat_nil : strConcat [] = "" := rfl

theorem strConcat_cons (a : String) (l : List String) :
    strConcat (a :: l) = a ++ strConcat l := rfl

theorem strConcat_append (l1 l2 : List String) :
    strConcat (l1 ++ l2) = strConcat l1 ++ strConcat l2 := by
  induction l1 with
  | nil =>
    apply String.ext
    simp [strConcat_nil, String.data_append]
  | cons a t ih =>
    simp only [List.cons_append, strConcat_cons, ih, String.append_assoc]

theorem foldl_step_concat {α : Type} (step : String → α → String) (g : α → String)
    (h : ∀ out x, step out x = out ++ g x) :
    ∀ (l : List α) (init : String), l.foldl step init = init ++ strConcat (l.map g) := by
  intro l
  induction l with
  | nil =>
    intro init
    simp [strConcat_nil, String.append_empty]
  | cons a t ih =>
    intro init
    simp only [List.foldl_cons, List.map_cons, strConcat_cons, h]
    rw [ih, String.append_assoc]

/-! ### The widths computation agrees with the per-column maximum -/

theorem widths_fold_getD (cols : Nat) :
    ∀ (ps : List (Nat × String)) (acc : List Nat), acc.length = cols →
      ∀ c, c < cols →
      ((ps.foldl
        (fun ws p => ws.set (p.1 % cols) (max (ws.getD (p.1 % cols) 0) p.2.length))
        acc).getD c 0)
        = max (acc.getD c 0)
            ((ps.filterMap
              (fun p => if p.1 % cols = c then some p.2.length else none)).foldr max 0) := by
  intro ps
  induction ps with
  | nil =>
    intro acc _ c _
    simp
  | cons p t ih =>
    intro acc hlen c hc
    simp only [List.foldl_cons, List.filterMap_cons]
    by_cases hpc : p.1 % cols = c
    · rw [ih _ (by simp [hlen]) c hc]
      have hcacc : c < acc.length := by omega
      have hset : (acc.set (p.1 % cols) (max (acc.getD (p.1 % cols) 0) p.2.length)).getD c 0
          = max (acc.getD c 0) p.2.length := by
        rw [hpc, List.getD_eq_getElem?_getD, List.getElem?_set_self hcacc]
        rfl
      rw [hset, if_pos hpc]
      simp only [List.foldr_cons]
      rw [Nat.max_assoc]
    · rw [ih _ (by simp [hlen]) c hc]
      have hset : (acc.set (p.1 % cols) (max (acc.getD (p.1 % cols) 0) p.2.length)).getD c 0
          = acc.getD c 0 := by
        rw [List.getD_eq_getElem?_getD, List.getElem?_set_ne hpc,
          ← List.getD_eq_getElem?_getD]
      rw [hset, if_neg hpc]

theorem colWidthsCalc_getD (cols : Nat) (words : List String) (c : Nat) (hc : c < cols) :
    (colWidthsCalc cols words).getD c 0 = specColWidth cols words c := by
  unfold colWidthsCalc specColWidth
  rw [widths_fold_getD cols words.enum (List.replicate cols 0) (by simp) c hc]
  rw [List.getD_eq_getElem?_getD, List.getElem?_replicate, if_pos hc]
  simp

/-! ### The output-building loop as a flat concatenation -/

theorem buildOutput_eq_flat (cols pad : Nat) (hcols : 1 ≤ cols) (words : List String) :
    buildOutput cols pad (colWidthsCalc cols words) words =
      strConcat (words.enum.map (flatCell cols pad (specColWidth cols words))) := by
  unfold buildOutput
  rw [foldl_step_concat _
    (fun p : Nat × String =>
      leftJustify p.2 ((colWidthsCalc cols words).getD (p.1 % cols) 0) ++
        (if p.1 % cols < cols - 1 then spacesStr pad else "\n"))
    (by
      intro out p
      by_cases hcnd : p.1 % cols < cols - 1 <;> simp [hcnd, String.append_assoc])]
  apply congrArg strConcat
  apply List.map_congr_left
  intro p _
  unfold flatCell
  rw [colWidthsCalc_getD cols words (p.1 % cols) (Nat.mod_lt _ (by omega))]

/-! ### Row-wise reading of the flat concatenation -/

theorem mod_add_of_lt (s j cols : Nat) (hs : s % cols = 0) (hj : j < cols) :
    (s + j) % cols = j := by
  rw [Nat.add_mod, hs]
  simp [Nat.mod_eq_of_lt hj]

theorem row_concat_eq (cols pad : Nat) (W : Nat → Nat) (s : Nat) (hs : s % cols = 0) :
    ∀ (row : List String) (j : Nat), j + row.length ≤ cols →
      strConcat ((List.enumFrom (s + j) row).map (flatCell cols pad W)) =
      strConcat ((List.enumFrom j row).map (specCell cols pad W)) := by
  intro row
  induction row with
  | nil => intro j _; rfl
  | cons w t ih =>
    intro j hj
    simp only [List.enumFrom_cons, List.map_cons, strConcat_cons]
    have hjc : j < cols := by simp only [List.length_cons] at hj; omega
    have hmod : (s + j) % cols = j := mod_add_of_lt s j cols hs hjc
    have hcell : flatCell cols pad W (s + j, w) = specCell cols pad W (j, w) := by
      unfold flatCell specCell
      simp only [hmod]
      congr 1
      by_cases hlt : j < cols - 1
      · rw [if_pos hlt, if_neg (by omega)]
      · rw [if_neg hlt, if_pos (by omega)]
    rw [hcell]
    have hstep : s + j + 1 = s + (j + 1) := by omega
    rw [hstep, ih (j + 1) (by simp only [List.length_cons] at hj; omega)]

theorem chunksAux_nil (n fuel : Nat) : chunksAux n fuel [] = [] := by
  cases fuel <;> rfl

theorem flat_eq_chunks (cols pad : Nat) (hcols : 1 ≤ cols) (W : Nat → Nat) :
    ∀ (fuel : Nat) (words : List String) (s : Nat), words.length ≤ fuel → s % cols = 0 →
      strConcat ((List.enumFrom s words).map (flatCell cols pad W)) =
      strConcat ((chunksAux cols fuel words).map (specRenderRow cols pad W)) := by
  intro fuel
  induction fuel with
  | zero =>
    intro words s hlen _
    have hnil : words = [] := List.length_eq_zero.mp (Nat.le_zero.mp hlen)
    subst hnil
    rfl
  | succ fuel ih =>
    intro words s hlen hs
    cases words with
    | nil => rfl
    | cons a l =>
      show strConcat ((List.enumFrom s (a :: l)).map (flatCell cols pad W)) =
        strConcat (((a :: l).take cols :: chunksAux cols fuel ((a :: l).drop cols)).map
          (specRenderRow cols pad W))
      rw [List.map_cons, strConcat_cons]
      conv_lhs => rw [← List.take_append_drop cols (a :: l)]
      rw [List.enumFrom_append, List.map_append, strConcat_append]
      have hrowlen : ((a :: l).take cols).length ≤ cols := by
        simp [List.length_take]
      have hrow : strConcat ((List.enumFrom s ((a :: l).take cols)).map (flatCell cols pad W))
          = specRenderRow cols pad W ((a :: l).take cols) := by
        have h0 := row_concat_eq cols pad W s hs ((a :: l).take cols) 0 (by omega)
        simpa using h0
      rw [hrow]
      congr 1
      by_cases hrest : (a :: l).drop cols = []
      · rw [hrest]
        simp [List.enumFrom_nil, strConcat_nil, chunksAux_nil]
      · have hlen2 : cols ≤ (a :: l).length := by
          by_contra hcon
          push_neg at hcon
          exact hrest (List.drop_eq_nil_iff.mpr (Nat.le_of_lt hcon))
        have htake : ((a :: l).take cols).length = cols := by
          rw [List.length_take]
          exact inf_eq_left.mpr hlen2
        rw [htake]
        have hsmod : (s + cols) % cols = 0 := by
          rw [Nat.add_mod_right, hs]
        have hdlen : ((a :: l).drop cols).length ≤ fuel := by
          simp only [List.length_drop]
          simp only [List.length_cons] at hlen ⊢
          omega
        exact ih ((a :: l).drop cols) (s + cols) hdlen hsmod

/-! ### Last-character analysis of the rendered output -/

theorem char_ne_nl_of_not_ws (c : Char) (h : c.isWhitespace = false) : c ≠ '\n' := by
  intro hc
  subst hc
  exact absurd h (by decide)

theorem strConcat_singleton (x : String) : strConcat [x] = x := by
  rw [strConcat_cons, strConcat_nil, String.append_empty]

theorem getLast?_replicate_space (n : Nat) (h : n ≠ 0) :
    (List.replicate n ' ').getLast? = some ' ' := by
  cases n with
  | zero => exact absurd rfl h
  | succ m =>
    rw [List.replicate_succ', List.getLast?_append]
    rfl

theorem leftJustify_last (w : String) (hw : goodToken w) (width : Nat) :
    ∃ c, (leftJustify w width).data.getLast? = some c ∧ c ≠ '\n' := by
  obtain ⟨hne, hws⟩ := hw
  unfold leftJustify spacesStr
  rw [String.data_append]
  cases hrep : width - w.length with
  | zero =>
    rw [show (String.mk (List.replicate 0 ' ')).data = [] from rfl, List.append_nil]
    cases hlast : w.data.getLast? with
    | none => exact absurd (List.getLast?_eq_none_iff.mp hlast) hne
    | some c =>
      refine ⟨c, rfl, char_ne_nl_of_not_ws c (hws c ?_)⟩
      obtain ⟨l', hl⟩ := List.getLast?_eq_some_iff.mp hlast
      rw [hl]
      simp
  | succ n =>
    rw [show (String.mk (List.replicate (n + 1) ' ')).data = List.replicate (n + 1) ' '
      from rfl]
    rw [List.getLast?_append, getLast?_replicate_space (n + 1) (by omega)]
    exact ⟨' ', rfl, by decide⟩

theorem pad_block_last (w : String) (hw : goodToken w) (width pad : Nat) :
    ∃ c, (leftJustify w width ++ spacesStr pad).data.getLast? = some c ∧ c ≠ '\n' := by
  cases hpad : pad with
  | zero =>
    rw [show spacesStr 0 = "" from rfl, String.append_empty]
    exact leftJustify_last w hw width
  | succ n =>
    rw [String.data_append]
    rw [show (spacesStr (n + 1)).data = List.replicate (n + 1) ' ' from rfl]
    rw [List.getLast?_append, getLast?_replicate_space (n + 1) (by omega)]
    exact ⟨' ', rfl, by decide⟩

theorem nl_block_last (x : String) :
    (x ++ "\n").data.getLast? = some '\n' := by
  rw [String.data_append, List.getLast?_append]
  rfl

theorem specRenderRow_decomp (cols pad : Nat) (W : Nat → Nat) (L : List String) (w : String) :
    specRenderRow cols pad W (L ++ [w]) =
      strConcat (L.enum.map (specCell cols pad W)) ++ specCell cols pad W (L.length, w) := by
  unfold specRenderRow
  rw [List.enum_append, List.map_append, strConcat_append]
  congr 1
  show strConcat [specCell cols pad W (L.length, w)] = _
  exact strConcat_singleton _

theorem specRenderRow_last_full (cols pad : Nat) (W : Nat → Nat) (row : List String)
    (hrow : row ≠ []) (hgood : ∀ w ∈ row, goodToken w) (hlen : row.length = cols) :
    ∃ q c, specRenderRow cols pad W row = q ++ "\n" ∧
      q.data.getLast? = some c ∧ c ≠ '\n' := by
  rcases List.eq_nil_or_concat row with hnil | ⟨L, w, hconcat⟩
  · exact absurd hnil hrow
  rw [List.concat_eq_append] at hconcat
  subst hconcat
  rw [specRenderRow_decomp]
  have hj : L.length = cols - 1 := by
    simp only [List.length_append, List.length_cons, List.length_nil] at hlen
    omega
  unfold specCell
  rw [if_pos hj]
  obtain ⟨c, hc, hcnl⟩ := leftJustify_last w (hgood w (by simp)) (W L.length)
  refine ⟨strConcat (L.enum.map (specCell cols pad W)) ++ leftJustify w (W L.length), c,
    by rw [String.append_assoc]; rfl, ?_, hcnl⟩
  rw [String.data_append, List.getLast?_append, hc]
  rfl

theorem specRenderRow_last_partial (cols pad : Nat) (W : Nat → Nat) (row : List String)
    (hrow : row ≠ []) (hgood : ∀ w ∈ row, goodToken w) (hlen : row.length < cols) :
    ∃ c, (specRenderRow cols pad W row).data.getLast? = some c ∧ c ≠ '\n' := by
  rcases List.eq_nil_or_concat row with hnil | ⟨L, w, hconcat⟩
  · exact absurd hnil hrow
  rw [List.concat_eq_append] at hconcat
  subst hconcat
  rw [specRenderRow_decomp]
  have hj : L.length ≠ cols - 1 := by
    simp only [List.length_append, List.length_cons, List.length_nil] at hlen
    omega
  unfold specCell
  rw [if_neg hj]
  obtain ⟨c, hc, hcnl⟩ := pad_block_last w (hgood w (by simp)) (W L.length) pad
  refine ⟨c, ?_, hcnl⟩
  rw [String.data_append, List.getLast?_append, hc]
  rfl

/-- The body of the spec-side rendering: the concatenation of the rendered
rows, with an explicit fuel for the chunking. -/
def chunksBody (cols pad fuel : Nat) (W : Nat → Nat) (words : List String) : String :=
  strConcat ((chunksAux cols fuel words).map (specRenderRow cols pad W))

theorem chunksBody_last (cols pad : Nat) (hcols : 1 ≤ cols) (W : Nat → Nat) :
    ∀ (fuel : Nat) (words : List String), words ≠ [] → words.length ≤ fuel →
      (∀ w ∈ words, goodToken w) →
      (words.length % cols = 0 →
        ∃ q c, chunksBody cols pad fuel W words = q ++ "\n" ∧
          q.data.getLast? = some c ∧ c ≠ '\n') ∧
      (words.length % cols ≠ 0 →
        ∃ c, (chunksBody cols pad fuel W words).data.getLast? = some c ∧ c ≠ '\n') := by
  intro fuel
  induction fuel with
  | zero =>
    intro words hne hlen _
    exact absurd (List.length_eq_zero.mp (Nat.le_zero.mp hlen)) hne
  | succ fuel ih =>
    intro words hne hlen hgood
    cases words with
    | nil => exact absurd rfl hne
    | cons a l =>
      have hbody : chunksBody cols pad (fuel + 1) W (a :: l) =
          specRenderRow cols pad W ((a :: l).take cols) ++
            chunksBody cols pad fuel W ((a :: l).drop cols) := by
        rfl
      by_cases hrest : (a :: l).drop cols = []
      · have hle : (a :: l).length ≤ cols := List.drop_eq_nil_iff.mp hrest
        have htake : (a :: l).take cols = a :: l := List.take_of_length_le hle
        have hbody2 : chunksBody cols pad (fuel + 1) W (a :: l) =
            specRenderRow cols pad W (a :: l) := by
          rw [hbody, hrest, htake]
          show _ ++ strConcat (List.map _ (chunksAux cols fuel [])) = _
          rw [chunksAux_nil]
          exact String.append_empty _
        have hpos : 0 < (a :: l).length := by simp
        constructor
        · intro hmod
          have hfull : (a :: l).length = cols := by
            rcases Nat.lt_or_ge (a :: l).length cols with hlt | hge
            · rw [Nat.mod_eq_of_lt hlt] at hmod
              omega
            · omega
          rw [hbody2]
          exact specRenderRow_last_full cols pad W (a :: l) hne hgood hfull
        · intro hmod
          have hpart : (a :: l).length < cols := by
            rcases Nat.lt_or_ge (a :: l).length cols with hlt | hge
            · exact hlt
            · exfalso
              have : (a :: l).length = cols := by omega
              rw [this] at hmod
              exact hmod (Nat.mod_self cols)
          rw [hbody2]
          exact specRenderRow_last_partial cols pad W (a :: l) hne hgood hpart
      · have hgt : cols < (a :: l).length := by
          by_contra hcon
          push_neg at hcon
          exact hrest (List.drop_eq_nil_iff.mpr hcon)
        have hdne : (a :: l).drop cols ≠ [] := hrest
        have hdlen : ((a :: l).drop cols).length ≤ fuel := by
          simp only [List.length_drop]
          simp only [List.length_cons] at hlen ⊢
          omega
        have hdgood : ∀ w ∈ (a :: l).drop cols, goodToken w :=
          fun w hw => hgood w (List.mem_of_mem_drop hw)
        have hmodeq : ((a :: l).drop cols).length % cols = (a :: l).length % cols := by
          rw [List.length_drop]
          conv_rhs => rw [show (a :: l).length = ((a :: l).length - cols) + cols by omega]
          rw [Nat.add_mod_right]
        obtain ⟨ihfull, ihpart⟩ := ih ((a :: l).drop cols) hdne hdlen hdgood
        constructor
        · intro hmod
          obtain ⟨q, c, hq, hqlast, hcnl⟩ := ihfull (by rw [hmodeq]; exact hmod)
          have hqne : q.data ≠ [] := by
            intro hq0
            rw [List.getLast?_eq_none_iff.mpr hq0] at hqlast
            exact Option.noConfusion hqlast
          refine ⟨specRenderRow cols pad W ((a :: l).take cols) ++ q, c, ?_, ?_, hcnl⟩
          · rw [hbody, hq, String.append_assoc]
          · rw [String.data_append, List.getLast?_append, hqlast]
            rfl
        · intro hmod
          obtain ⟨c, hlast, hcnl⟩ := ihpart (by rw [hmodeq]; exact hmod)
          refine ⟨c, ?_, hcnl⟩
          rw [hbody, String.data_append, List.getLast?_append, hlast]
          rfl

/-! ### Tokens produced by whitespace splitting are well-formed -/

theorem splitWSAux_good : ∀ (l acc : List Char), (∀ c ∈ acc, c.isWhitespace = false) →
    ∀ w ∈ splitWSAux l acc, goodToken w := by
  intro l
  induction l with
  | nil =>
    intro acc hacc w hw
    unfold splitWSAux at hw
    cases hae : acc.isEmpty with
    | true =>
      rw [hae, if_pos rfl] at hw
      exact absurd hw (List.not_mem_nil w)
    | false =>
      rw [hae, if_neg Bool.false_ne_true] at hw
      simp only [List.mem_singleton] at hw
      subst hw
      refine ⟨?_, ?_⟩
      · show acc.reverse ≠ []
        simp only [ne_eq, List.reverse_eq_nil_iff]
        intro h0
        rw [h0] at hae
        exact Bool.noConfusion hae
      · intro c hc
        exact hacc c (List.mem_reverse.mp hc)
  | cons a t ih =>
    intro acc hacc w hw
    unfold splitWSAux at hw
    cases haw : a.isWhitespace with
    | true =>
      rw [haw, if_pos rfl] at hw
      cases hae : acc.isEmpty with
      | true =>
        rw [hae, if_pos rfl] at hw
        exact ih [] (by simp) w hw
      | false =>
        rw [hae, if_neg Bool.false_ne_true] at hw
        rcases List.mem_cons.mp hw with hw | hw
        · subst hw
          refine ⟨?_, ?_⟩
          · show acc.reverse ≠ []
            simp only [ne_eq, List.reverse_eq_nil_iff]
            intro h0
            rw [h0] at hae
            exact Bool.noConfusion hae
          · intro c hc
            exact hacc c (List.mem_reverse.mp hc)
        · exact ih [] (by simp) w hw
    | false =>
      rw [haw, if_neg Bool.false_ne_true] at hw
      refine ih (a :: acc) ?_ w hw
      intro c hc
      rcases List.mem_cons.mp hc with hc | hc
      · subst hc; exact haw
      · exact hacc c hc

theorem splitWhitespaceM_good (s : String) : ∀ w ∈ splitWhitespaceM s, goodToken w :=
  splitWSAux_good s.data [] (by simp)

/-! ### Exactly one trailing newline -/

theorem trailing_one (q : String) (c : Char) (h : q.data.getLast? = some c)
    (hc : c ≠ '\n') : trailingNewlineCount (q ++ "\n") = 1 := by
  obtain ⟨l', hl⟩ := List.getLast?_eq_some_iff.mp h
  unfold trailingNewlineCount
  rw [String.data_append, hl]
  rw [show ("\n" : String).data = ['\n'] from rfl]
  rw [List.reverse_append, List.reverse_append]
  simp only [List.reverse_cons, List.reverse_nil, List.nil_append, List.cons_append,
    List.singleton_append]
  rw [List.takeWhile_cons, List.takeWhile_cons]
  simp [hc]

/-! ### The formatter agrees with its specification -/

theorem formatTokens_eq_spec (cols pad : Nat) (hcols : 1 ≤ cols) (words : List String)
    (hgood : ∀ w ∈ words, goodToken w) :
    ColumnFormatter.formatTokens ⟨cols, pad⟩ words = formatColumnsSpec cols pad words ∧
    (words ≠ [] →
      trailingNewlineCount (ColumnFormatter.formatTokens ⟨cols, pad⟩ words) = 1) := by
  cases words with
  | nil => exact ⟨rfl, fun h => absurd rfl h⟩
  | cons a l =>
    have hne : (a :: l : List String) ≠ [] := by simp
    have hB : buildOutput cols pad (colWidthsCalc cols (a :: l)) (a :: l) =
        chunksBody cols pad (a :: l).length (specColWidth cols (a :: l)) (a :: l) := by
      rw [buildOutput_eq_flat cols pad hcols (a :: l)]
      exact flat_eq_chunks cols pad hcols (specColWidth cols (a :: l)) (a :: l).length
        (a :: l) 0 le_rfl (Nat.zero_mod cols)
    have hspec : formatColumnsSpec cols pad (a :: l) =
        (if (a :: l).length % cols = 0 then
          chunksBody cols pad (a :: l).length (specColWidth cols (a :: l)) (a :: l)
        else
          chunksBody cols pad (a :: l).length (specColWidth cols (a :: l)) (a :: l) ++ "\n") := by
      rw [formatColumnsSpec, if_neg hne]
      rfl
    have hfmt : ColumnFormatter.formatTokens ⟨cols, pad⟩ (a :: l) =
        (if (buildOutput cols pad (colWidthsCalc cols (a :: l)) (a :: l)).data.getLast?
            = some '\n' then
          buildOutput cols pad (colWidthsCalc cols (a :: l)) (a :: l)
        else
          buildOutput cols pad (colWidthsCalc cols (a :: l)) (a :: l) ++ "\n") := rfl
    obtain ⟨hfull, hpart⟩ := chunksBody_last cols pad hcols (specColWidth cols (a :: l))
      (a :: l).length (a :: l) hne le_rfl hgood
    by_cases hmod : (a :: l).length % cols = 0
    · obtain ⟨q, c, hq, hqlast, hcnl⟩ := hfull hmod
      have hendnl : (buildOutput cols pad (colWidthsCalc cols (a :: l)) (a :: l)).data.getLast?
          = some '\n' := by
        rw [hB, hq]
        exact nl_block_last q
      constructor
      · rw [hfmt, if_pos hendnl, hspec, if_pos hmod, hB]
      · intro _
        rw [hfmt, if_pos hendnl, hB, hq]
        exact trailing_one q c hqlast hcnl
    · obtain ⟨c, hlast, hcnl⟩ := hpart hmod
      have hendnl : ¬ ((buildOutput cols pad (colWidthsCalc cols (a :: l)) (a :: l)).data.getLast?
          = some '\n') := by
        rw [hB, hlast]
        intro hcon
        exact hcnl (Option.some.inj hcon)
      constructor
      · rw [hfmt, if_neg hendnl, hspec, if_neg hmod, hB]
      · intro _
        rw [hfmt, if_neg hendnl, hB]
        exact trailing_one _ c hlast hcnl

/-! ### Claim C1 -/

/-- Claim C1: for every whitespace-delimited token stream and columnsPerRow
at least 1 (padding arbitrary), the column formatter agrees with the
spec-side description (token at position i in column i mod columnsPerRow,
each token left-justified to the maximum width of its column, the padding
between columns, a line break after the last column of a row), the empty
token stream yields the empty string, and for nonempty streams the output
ends with exactly one trailing line break. -/
theorem claim_C1_column_formatter (cols pad : Nat) (input : String) (hcols : 1 ≤ cols) :
    (ColumnFormatter.mk cols pad).format input =
      formatColumnsSpec cols pad (splitWhitespaceM input) ∧
    (splitWhitespaceM input = [] → (ColumnFormatter.mk cols pad).format input = "") ∧
    (splitWhitespaceM input ≠ [] →
      trailingNewlineCount ((ColumnFormatter.mk cols pad).format input) = 1) := by
  have h := formatTokens_eq_spec cols pad hcols (splitWhitespaceM input)
    (splitWhitespaceM_good input)
  refine ⟨h.1, fun hnil => ?_, h.2⟩
  show ColumnFormatter.formatTokens ⟨cols, pad⟩ (splitWhitespaceM input) = ""
  rw [hnil]
  rfl

/-- Witness for claim C1 at the spec's own example: two columns, padding 1,
tokens a bb ccc d. -/
theorem claim_C1_column_formatter_witness :
    (ColumnFormatter.mk 2 1).format "a bb ccc d" =
      formatColumnsSpec 2 1 (splitWhitespaceM "a bb ccc d") ∧
    trailingNewlineCount ((ColumnFormatter.mk 2 1).format "a bb ccc d") = 1 := by
  have h := claim_C1_column_formatter 2 1 "a bb ccc d" (by decide)
  exact ⟨h.1, h.2.2 (by decide)⟩

/-! ### The three sort orders used by main

Rust Vec::sort_by is a stable comparison sort; it is modelled with
insertionSort, which is stable and sorts with respect to the modelled
comparator. -/

/-- Comparator of the date-page sort: a.2.cmp(b.2) ascending on the
third tuple component (the sortField / time-of-day string). -/
def refLe (a b : NodeRef) : Prop :=
  strLe a.2.2 b.2.2 = true

instance : DecidableRel refLe :=
  fun a b => inferInstanceAs (Decidable (strLe a.2.2 b.2.2 = true))

/-- Comparator of the tags summary sort: b.1.cmp(a.1), i.e. descending
posting count. -/
def countGe (a b : String × Nat) : Prop :=
  b.2 ≤ a.2

instance : DecidableRel countGe :=
  fun a b => Nat.decLe b.2 a.2

/-- Comparator of the dates summary sort: b.0.cmp(a.0), i.e. descending
parsed integer value. -/
def valGe (a b : Nat × Nat) : Prop :=
  b.1 ≤ a.1

instance : DecidableRel valGe :=
  fun a b => Nat.decLe b.1 a.1

theorem listCharLe_total : ∀ a b : List Char, listCharLe a b = true ∨ listCharLe b a = true := by
  intro a
  induction a with
  | nil => intro b; left; rfl
  | cons x xs ih =>
    intro b
    cases b with
    | nil => right; rfl
    | cons y ys =>
      unfold listCharLe
      by_cases hxy : x.toNat < y.toNat
      · left; rw [if_pos hxy]
      · by_cases hyx : y.toNat < x.toNat
        · right; rw [if_pos hyx]
        · rw [if_neg hxy, if_neg hyx, if_neg hyx, if_neg hxy]
          exact ih ys

theorem listCharLe_trans :
    ∀ a b c : List Char, listCharLe a b = true → listCharLe b c = true →
      listCharLe a c = true := by
  intro a
  induction a with
  | nil => intro b c _ _; rfl
  | cons x xs ih =>
    intro b c h1 h2
    cases b with
    | nil => exact absurd h1 (by unfold listCharLe; exact Bool.false_ne_true)
    | cons y ys =>
      cases c with
      | nil => exact absurd h2 (by unfold listCharLe; exact Bool.false_ne_true)
      | cons z zs =>
        unfold listCharLe at h1 h2 ⊢
        by_cases hxy : x.toNat < y.toNat
        · by_cases hyz : y.toNat < z.toNat
          · rw [if_pos (by omega)]
          · rw [if_neg hyz] at h2
            by_cases hzy : z.toNat < y.toNat
            · rw [if_pos hzy] at h2
              exact absurd h2 Bool.false_ne_true
            · rw [if_pos (by omega)]
        · rw [if_neg hxy] at h1
          by_cases hyx : y.toNat < x.toNat
          · rw [if_pos hyx] at h1
            exact absurd h1 Bool.false_ne_true
          · rw [if_neg hyx] at h1
            by_cases hyz : y.toNat < z.toNat
            · rw [if_pos (by omega)]
            · rw [if_neg hyz] at h2
              by_cases hzy : z.toNat < y.toNat
              · rw [if_pos hzy] at h2
                exact absurd h2 Bool.false_ne_true
              · rw [if_neg hzy] at h2
                rw [if_neg (by omega), if_neg (by omega)]
                exact ih ys zs h1 h2

instance : IsTotal NodeRef refLe :=
  ⟨fun a b => listCharLe_total a.2.2.data b.2.2.data⟩

instance : IsTrans NodeRef refLe :=
  ⟨fun a b c h1 h2 => listCharLe_trans a.2.2.data b.2.2.data c.2.2.data h1 h2⟩

instance : IsTotal (String × Nat) countGe :=
  ⟨fun a b => Nat.le_total b.2 a.2⟩

instance : IsTrans (String × Nat) countGe :=
  ⟨fun _ _ _ h1 h2 => Nat.le_trans h2 h1⟩

instance : IsTotal (Nat × Nat) valGe :=
  ⟨fun a b => Nat.le_total b.1 a.1⟩

instance : IsTrans (Nat × Nat) valGe :=
  ⟨fun _ _ _ h1 h2 => Nat.le_trans h2 h1⟩

/-- The date-page sort: file_list.sort_by(a.2.cmp(b.2)). -/
def sortByExtra (l : List NodeRef) : List NodeRef :=
  l.insertionSort refLe

/-- The tags-summary sort: tags_data.sort_by(b.1.cmp(a.1)). -/
def sortTagsData (l : List (String × Nat)) : List (String × Nat) :=
  l.insertionSort countGe

/-- The dates-summary sort: dates_data.sort_by(b.0.cmp(a.0)). -/
def sortDatesData (l : List (Nat × Nat)) : List (Nat × Nat) :=
  l.insertionSort valGe

/-! ### The generated key pages (main, tag and date page writes) -/

/-- One cross-reference line of a tag page, as written by the writeln
call: two fields, file name and title, then a newline. -/
def tagRefLine (r : NodeRef) : String :=
  "[[" ++ r.1 ++ "|" ++ r.2.1 ++ "]]\n"

/-- One cross-reference line of a date page: file name, time of day and
title, then a space (present in the format string) and a newline. -/
def dateRefLine (r : NodeRef) : String :=
  "[[" ++ r.1 ++ "|" ++ r.2.2 ++ "|" ++ r.2.1 ++ "]] \n"

/-- The header block written at the top of every generated key page. -/
def pageHeader (k : String) : String :=
  "---\nTitle: " ++ k ++ "\n---\n\n#list\n"

/-- The full text of a generated tag page: header, then one line per
posting in insertion order. -/
def tagPage (tag : String) (file_list : List NodeRef) : String :=
  pageHeader tag ++ strConcat (file_list.map tagRefLine)

/-- The full text of a generated date page: header, then one line per
posting after the stable sort on the time-of-day field. -/
def datePage (date : String) (file_list : List NodeRef) : String :=
  pageHeader date ++ strConcat ((sortByExtra file_list).map dateRefLine)

/-! ### Claim C2 -/

/-- Claim C2: every date page lists its postings stably sorted ascending by
sortField under lexicographic string comparison (the rendered list is a
permutation of the postings, sorted by the comparator), every tag page
lists its postings in insertion order with no sorting, and the spec's
example with sortField values 09:00, 07:30, 12:15 inserted in that order
renders in the order 07:30, 09:00, 12:15. -/
theorem claim_C2_date_page_sorted :
    (∀ (d : String) (ps : List NodeRef),
      datePage d ps = pageHeader d ++ strConcat ((sortByExtra ps).map dateRefLine) ∧
      (sortByExtra ps).Perm ps ∧
      List.Sorted refLe (sortByExtra ps)) ∧
    (∀ (t : String) (ps : List NodeRef),
      tagPage t ps = pageHeader t ++ strConcat (ps.map tagRefLine)) ∧
    sortByExtra [("n1", "t1", "09:00"), ("n2", "t2", "07:30"), ("n3", "t3", "12:15")] =
      [("n2", "t2", "07:30"), ("n1", "t1", "09:00"), ("n3", "t3", "12:15")] := by
  refine ⟨fun d ps => ⟨rfl, List.perm_insertionSort refLe ps, ?_⟩, fun t ps => rfl, by decide⟩
  exact List.sorted_insertionSort refLe ps

/-! ### The two summary lines of the master index -/

/-- One token of the keys-by-frequency line: tag(count) plus the trailing
space of the format string. -/
def tagCountToken (p : String × Nat) : String :=
  p.1 ++ "(" ++ Nat.repr p.2 ++ ") "

/-- The keys-by-frequency line: the (tag, count) pairs in key-set
iteration order are sorted descending by count, rendered and formatted
with 5 columns per row and 2-space padding. -/
def tagsSummaryLine (tags_data : List (String × Nat)) : String :=
  ((ColumnFormatter.new 5).with_padding 2).format
    (strConcat ((sortTagsData tags_data).map tagCountToken))

/-- One token of the dates-by-recency line: the parsed date value in a
double-bracket cross reference, then (count) and the trailing space. -/
def dateCountToken (p : Nat × Nat) : String :=
  "[[" ++ Nat.repr p.1 ++ "]](" ++ Nat.repr p.2 ++ ") "

/-- The dates-by-recency line: the (parsed date, count) pairs are sorted
descending by the parsed value, rendered and formatted with 7 columns
per row and the default 2-space padding. -/
def datesSummaryLine (dates_data : List (Nat × Nat)) : String :=
  (ColumnFormatter.new 7).format
    (strConcat ((sortDatesData dates_data).map dateCountToken))

/-! ### Claim C3 -/

/-- Claim C3: the keys-by-frequency line renders every tag key with its
posting count as key(count), in descending order of count (the rendered
order is a permutation of the input sorted descending by count), through
the column formatter with 5 columns and 2-space padding; for counts
a:3, b:5, c:1 in any iteration order the relative order is
b(5) a(3) c(1). -/
theorem claim_C3_tags_summary :
    (∀ td : List (String × Nat),
      (sortTagsData td).Perm td ∧
      List.Sorted countGe (sortTagsData td) ∧
      tagsSummaryLine td =
        (ColumnFormatter.mk 5 2).format
          (strConcat ((sortTagsData td).map tagCountToken))) ∧
    (∀ l : List (String × Nat), l.Perm [("a", 3), ("b", 5), ("c", 1)] →
      sortTagsData l = [("b", 5), ("a", 3), ("c", 1)] ∧
      splitWhitespaceM (strConcat ((sortTagsData l).map tagCountToken)) =
        ["b(5)", "a(3)", "c(1)"] ∧
      tagsSummaryLine l = "b(5)  a(3)  c(1)  \n") := by
  constructor
  · intro td
    exact ⟨List.perm_insertionSort countGe td,
      List.sorted_insertionSort countGe td, rfl⟩
  · intro l hperm
    have hmem : l ∈ ([("a", 3), ("b", 5), ("c", 1)] : List (String × Nat)).permutations' :=
      List.mem_permutations'.mpr hperm
    have hperms : ([("a", 3), ("b", 5), ("c", 1)] : List (String × Nat)).permutations' =
        [[("a", 3), ("b", 5), ("c", 1)], [("b", 5), ("a", 3), ("c", 1)],
         [("b", 5), ("c", 1), ("a", 3)], [("a", 3), ("c", 1), ("b", 5)],
         [("c", 1), ("a", 3), ("b", 5)], [("c", 1), ("b", 5), ("a", 3)]] := by
      decide
    rw [hperms] at hmem
    simp only [List.mem_cons, List.not_mem_nil, or_false] at hmem
    rcases hmem with h1 | h1 | h1 | h1 | h1 | h1 <;> subst h1 <;>
      exact ⟨by decide, by decide, by decide⟩

/-- Witness for claim C3: a concrete iteration order of the example key
set renders as b(5) a(3) c(1) (with the formatter's column padding). -/
theorem claim_C3_tags_summary_witness :
    tagsSummaryLine [("c", 1), ("a", 3), ("b", 5)] = "b(5)  a(3)  c(1)  \n" :=
  (claim_C3_tags_summary.2 [("c", 1), ("a", 3), ("b", 5)] (by decide)).2.2

/-! ### Claim C4 -/

/-- Claim C4: the dates-by-recency line renders every parsed date key with
its posting count as a double-bracketed date followed by the count in
parentheses, sorted descending by the parsed integer value (not by string
comparison: 10 sorts before 9 although the string 10 compares below the
string 9), formatted with 7 columns per row and the default 2-space
padding set by ColumnFormatter::new. -/
theorem claim_C4_dates_summary :
    (∀ dd : List (Nat × Nat),
      (sortDatesData dd).Perm dd ∧
      List.Sorted valGe (sortDatesData dd) ∧
      datesSummaryLine dd =
        (ColumnFormatter.mk 7 2).format
          (strConcat ((sortDatesData dd).map dateCountToken))) ∧
    (sortDatesData [(9, 1), (10, 1)] = [(10, 1), (9, 1)] ∧ strLe "10" "9" = true) ∧
    datesSummaryLine [(20240101, 1), (20240102, 1)] =
      "[[20240102]](1)  [[20240101]](1)  \n" := by
  refine ⟨fun dd => ⟨List.perm_insertionSort valGe dd,
    List.sorted_insertionSort valGe dd, rfl⟩, ⟨by decide, by decide⟩, by decide⟩

/-! ### Line structure of the written pages (claim C7) -/

/-- Splitting a string at newline characters: the sequence of lines of a
written file (a file ending in a newline yields a final empty piece). -/
def splitNlAux : List Char → List Char → List String
  | [], acc => [String.mk acc.reverse]
  | c :: rest, acc =>
    if c = '\n' then String.mk acc.reverse :: splitNlAux rest []
    else splitNlAux rest (c :: acc)

/-- The lines of a string. -/
def linesOf (s : String) : List String :=
  splitNlAux s.data []

/-- A string with no newline character: the content of a single line. -/
def nlFree (s : String) : Prop :=
  ∀ c ∈ s.data, c ≠ '\n'

instance : DecidablePred nlFree :=
  fun s => inferInstanceAs (Decidable (∀ c ∈ s.data, c ≠ '\n'))

theorem splitNlAux_line : ∀ (x : List Char), (∀ c ∈ x, c ≠ '\n') →
    ∀ (rest acc : List Char),
      splitNlAux (x ++ '\n' :: rest) acc =
        String.mk (acc.reverse ++ x) :: splitNlAux rest [] := by
  intro x
  induction x with
  | nil =>
    intro _ rest acc
    show splitNlAux ('\n' :: rest) acc = _
    rw [show splitNlAux ('\n' :: rest) acc =
      if ('\n' : Char) = '\n' then String.mk acc.reverse :: splitNlAux rest []
      else splitNlAux rest ('\n' :: acc) from rfl]
    rw [if_pos rfl]
    simp
  | cons c x ih =>
    intro hx rest acc
    show splitNlAux (c :: (x ++ '\n' :: rest)) acc = _
    rw [show splitNlAux (c :: (x ++ '\n' :: rest)) acc =
      if c = '\n' then String.mk acc.reverse :: splitNlAux (x ++ '\n' :: rest) []
      else splitNlAux (x ++ '\n' :: rest) (c :: acc) from rfl]
    rw [if_neg (hx c (by simp))]
    rw [ih (fun c' hc' => hx c' (by simp [hc'])) rest (c :: acc)]
    simp

/-- The text of a sequence of lines, each terminated by a newline. -/
def unlines (ls : List String) : String :=
  strConcat (ls.map (fun l => l ++ "\n"))

theorem linesOf_unlines (ls : List String) (h : ∀ l ∈ ls, nlFree l) :
    linesOf (unlines ls) = ls ++ [""] := by
  induction ls with
  | nil => rfl
  | cons x ls ih =>
    show linesOf ((x ++ "\n") ++ unlines ls) = _
    unfold linesOf
    have hdata : ((x ++ "\n") ++ unlines ls).data = x.data ++ '\n' :: (unlines ls).data := by
      simp [String.data_append]
    rw [hdata, splitNlAux_line x.data (h x (by simp)) (unlines ls).data []]
    have hih := ih (fun l hl => h l (by simp [hl]))
    unfold linesOf at hih
    rw [hih]
    simp

theorem nlFree_append (a b : String) (ha : nlFree a) (hb : nlFree b) :
    nlFree (a ++ b) := by
  intro c hc
  rw [String.data_append] at hc
  rcases List.mem_append.mp hc with h | h
  · exact ha c h
  · exact hb c h

theorem pageHeader_eq_unlines (k : String) :
    pageHeader k = unlines ["---", "Title: " ++ k, "---", "", "#list"] := by
  unfold pageHeader unlines
  simp only [List.map_cons, List.map_nil, strConcat_cons, strConcat_nil, String.append_empty]
  apply String.ext
  simp only [String.data_append]
  simp

theorem tagPage_lines (t : String) (ps : List NodeRef)
    (ht : nlFree t) (hps : ∀ r ∈ ps, nlFree r.1 ∧ nlFree r.2.1) :
    linesOf (tagPage t ps) =
      ["---", "Title: " ++ t, "---", "", "#list"] ++
        ps.map (fun r => "[[" ++ r.1 ++ "|" ++ r.2.1 ++ "]]") ++ [""] := by
  have hpage : tagPage t ps =
      unlines (["---", "Title: " ++ t, "---", "", "#list"] ++
        ps.map (fun r => "[[" ++ r.1 ++ "|" ++ r.2.1 ++ "]]")) := by
    unfold tagPage unlines
    rw [List.map_append, strConcat_append]
    congr 1
    · exact pageHeader_eq_unlines t
    · rw [List.map_map]
      apply congrArg strConcat
      apply List.map_congr_left
      intro r _
      show tagRefLine r = ("[[" ++ r.1 ++ "|" ++ r.2.1 ++ "]]") ++ "\n"
      unfold tagRefLine
      rw [show ("]]\n" : String) = "]]" ++ "\n" from by decide]
      simp [String.append_assoc]
  have hfree : ∀ l ∈ (["---", "Title: " ++ t, "---", "", "#list"] ++
      ps.map (fun r => "[[" ++ r.1 ++ "|" ++ r.2.1 ++ "]]")), nlFree l := by
    intro l hl
    rcases List.mem_append.mp hl with h | h
    · simp only [List.mem_cons, List.not_mem_nil, or_false] at h
      rcases h with rfl | rfl | rfl | rfl | rfl
      · decide
      · exact nlFree_append "Title: " t (by decide) ht
      · decide
      · decide
      · decide
    · obtain ⟨r, hr, rfl⟩ := List.mem_map.mp h
      obtain ⟨h1, h2⟩ := hps r hr
      exact nlFree_append _ "]]"
        (nlFree_append _ r.2.1 (nlFree_append _ "|"
          (nlFree_append "[[" r.1 (by decide) h1) (by decide)) h2) (by decide)
  rw [hpage, linesOf_unlines _ hfree]

theorem datePage_lines (d : String) (ps : List NodeRef)
    (hd : nlFree d) (hps : ∀ r ∈ ps, nlFree r.1 ∧ nlFree r.2.1 ∧ nlFree r.2.2) :
    linesOf (datePage d ps) =
      ["---", "Title: " ++ d, "---", "", "#list"] ++
        (sortByExtra ps).map
          (fun r => "[[" ++ r.1 ++ "|" ++ r.2.2 ++ "|" ++ r.2.1 ++ "]] ") ++ [""] := by
  have hpage : datePage d ps =
      unlines (["---", "Title: " ++ d, "---", "", "#list"] ++
        (sortByExtra ps).map
          (fun r => "[[" ++ r.1 ++ "|" ++ r.2.2 ++ "|" ++ r.2.1 ++ "]] ")) := by
    unfold datePage unlines
    rw [List.map_append, strConcat_append]
    congr 1
    · exact pageHeader_eq_unlines d
    · rw [List.map_map]
      apply congrArg strConcat
      apply List.map_congr_left
      intro r _
      show dateRefLine r = ("[[" ++ r.1 ++ "|" ++ r.2.2 ++ "|" ++ r.2.1 ++ "]] ") ++ "\n"
      unfold dateRefLine
      rw [show ("]] \n" : String) = "]] " ++ "\n" from by decide]
      simp [String.append_assoc]
  have hfree : ∀ l ∈ (["---", "Title: " ++ d, "---", "", "#list"] ++
      (sortByExtra ps).map
        (fun r => "[[" ++ r.1 ++ "|" ++ r.2.2 ++ "|" ++ r.2.1 ++ "]] ")), nlFree l := by
    intro l hl
    rcases List.mem_append.mp hl with h | h
    · simp only [List.mem_cons, List.not_mem_nil, or_false] at h
      rcases h with rfl | rfl | rfl | rfl | rfl
      · decide
      · exact nlFree_append "Title: " d (by decide) hd
      · decide
      · decide
      · decide
    · obtain ⟨r, hr, rfl⟩ := List.mem_map.mp h
      have hr2 : r ∈ ps := (List.perm_insertionSort refLe ps).mem_iff.mp hr
      obtain ⟨h1, h2, h3⟩ := hps r hr2
      exact nlFree_append _ "]] "
        (nlFree_append _ r.2.1
          (nlFree_append _ "|"
            (nlFree_append _ r.2.2
              (nlFree_append _ "|" (nlFree_append "[[" r.1 (by decide) h1) (by decide))
              h3) (by decide))
          h2) (by decide)
  rw [hpage, linesOf_unlines _ hfree]

/-! ### Claim C7 -/

/-- Counterexample to claim C7 as stated: a date page's posting line is not
exactly the three-field cross reference; the format string carries a
trailing space before the newline, so the line has an extra character. -/
theorem claim_C7_counterexample :
    linesOf (datePage "20240101" [("f", "T", "09:00")]) =
      ["---", "Title: 20240101", "---", "", "#list", "[[f|09:00|T]] ", ""] ∧
    "[[f|09:00|T]] " ≠ "[[f|09:00|T]]" := by
  constructor
  · decide
  · decide

/-- Claim C7 (amended): every generated key page consists exactly of the
lines dash-dash-dash, Title with the key, dash-dash-dash, a blank line
and the list marker, followed by one cross-reference line per posting:
for tag pages exactly the two-field form with nothing else on the line;
for date pages the three-field form followed by one trailing space.
(The final empty piece reflects the terminating newline of the file.) -/
theorem claim_C7_page_shape (t d : String) (ps qs : List NodeRef)
    (ht : nlFree t) (hd : nlFree d)
    (hps : ∀ r ∈ ps, nlFree r.1 ∧ nlFree r.2.1)
    (hqs : ∀ r ∈ qs, nlFree r.1 ∧ nlFree r.2.1 ∧ nlFree r.2.2) :
    linesOf (tagPage t ps) =
      ["---", "Title: " ++ t, "---", "", "#list"] ++
        ps.map (fun r => "[[" ++ r.1 ++ "|" ++ r.2.1 ++ "]]") ++ [""] ∧
    linesOf (datePage d qs) =
      ["---", "Title: " ++ d, "---", "", "#list"] ++
        (sortByExtra qs).map
          (fun r => "[[" ++ r.1 ++ "|" ++ r.2.2 ++ "|" ++ r.2.1 ++ "]] ") ++ [""] :=
  ⟨tagPage_lines t ps ht hps, datePage_lines d qs hd hqs⟩

/-- Witness for claim C7 at concrete pages. -/
theorem claim_C7_page_shape_witness :
    linesOf (tagPage "rust" [("f", "T", "")]) =
      ["---", "Title: rust", "---", "", "#list", "[[f|T]]", ""] := by
  have h := claim_C7_page_shape "rust" "20240101" [("f", "T", "")] [("f", "T", "09:00")]
    (by decide) (by decide) (by decide) (by decide)
  rw [h.1]
  decide

/-! ### The rendering pass of main (claim C5)

The rendering phase is modelled as a function of the two index contents
in HashSet iteration order.  It returns the list of finalized output
files (name, content) and, when a date key fails integer parsing, the
offending key: the error-propagation operator makes main return early,
the BufWriter for index.md is flushed on drop, and no further file is
created. -/

/-- The date loop of main: for each date key in iteration order the key
is parsed (a failure aborts the run before this key's page is created),
then the date page is created and the (parsed value, count) pair is
collected for the dates summary. -/
def renderDatesLoop :
    List (String × List NodeRef) → List (String × String) → List (Nat × Nat) →
      List (String × String) × List (Nat × Nat) × Option String
  | [], files, dates_data => (files, dates_data, none)
  | (d, ps) :: rest, files, dates_data =>
    match parseUsize d with
    | none => (files, dates_data, some d)
    | some n =>
      renderDatesLoop rest (files ++ [(d ++ ".md", datePage d ps)])
        (dates_data ++ [(n, ps.length)])

/-- The whole rendering pass of main: index.md is created and receives
the header and the tags section, every tag page is created, the Dates
heading is written, then the date loop runs; on success the dates
summary line completes index.md, on a parse failure the run aborts with
index.md holding only what was already written. -/
def renderRun (tags dates : List (String × List NodeRef)) :
    List (String × String) × Option String :=
  let idxTags := "---\nTitle: index\n---\n\n# Tags\n" ++
    tagsSummaryLine (tags.map (fun p => (p.1, p.2.length))) ++ "\n"
  let idxDates := idxTags ++ "# Dates\n"
  let tagFiles := tags.map (fun p => (p.1 ++ ".md", tagPage p.1 p.2))
  match renderDatesLoop dates [] [] with
  | (dateFiles, dates_data, none) =>
    (tagFiles ++ dateFiles ++
      [("index.md", idxDates ++ datesSummaryLine dates_data ++ "\n")], none)
  | (dateFiles, _, some bad) =>
    (tagFiles ++ dateFiles ++ [("index.md", idxDates)], some bad)

/-- The partial master-index content present when the run aborts inside
the date loop: header, tags section and the Dates heading, with no
dates-by-recency line. -/
def indexPartial (tags : List (String × List NodeRef)) : String :=
  "---\nTitle: index\n---\n\n# Tags\n" ++
    tagsSummaryLine (tags.map (fun p => (p.1, p.2.length))) ++ "\n" ++ "# Dates\n"

theorem renderDatesLoop_abort :
    ∀ (pre : List (String × List NodeRef)) (d : String) (ps : List NodeRef)
      (post : List (String × List NodeRef))
      (files : List (String × String)) (dates_data : List (Nat × Nat)),
      (∀ p ∈ pre, (parseUsize p.1).isSome) → parseUsize d = none →
      renderDatesLoop (pre ++ (d, ps) :: post) files dates_data =
        (files ++ pre.map (fun p => (p.1 ++ ".md", datePage p.1 p.2)),
         dates_data ++ pre.map (fun p => ((parseUsize p.1).getD 0, p.2.length)),
         some d) := by
  intro pre
  induction pre with
  | nil =>
    intro d ps post files dates_data _ hbad
    show renderDatesLoop ((d, ps) :: post) files dates_data = _
    unfold renderDatesLoop
    rw [hbad]
    simp
  | cons q pre ih =>
    intro d ps post files dates_data hpre hbad
    obtain ⟨q1, q2⟩ := q
    obtain ⟨n, hn⟩ := Option.isSome_iff_exists.mp (hpre (q1, q2) (by simp))
    show renderDatesLoop ((q1, q2) :: (pre ++ (d, ps) :: post)) files dates_data = _
    unfold renderDatesLoop
    rw [hn]
    show renderDatesLoop (pre ++ (d, ps) :: post)
      (files ++ [(q1 ++ ".md", datePage q1 q2)]) (dates_data ++ [(n, q2.length)]) = _
    rw [ih d ps post _ _ (fun p hp => hpre p (by simp [hp])) hbad]
    simp [hn]

/-! ### Claim C5 -/

/-- Counterexample to claim C5 as stated: with one tag key and one
unparseable date key, the fatal condition is detected (the run aborts
reporting the bad key), yet the tag page was already finalized before
detection — so it is not the case that no generated key page is
completed. -/
theorem claim_C5_counterexample :
    (renderRun [("a", [("f", "T", "")])] [("march", [("f", "T", "09:15")])]).2 =
      some "march" ∧
    ("a.md", tagPage "a" [("f", "T", "")]) ∈
      (renderRun [("a", [("f", "T", "")])] [("march", [("f", "T", "09:15")])]).1 := by
  constructor
  · decide
  · decide

/-- Claim C5 (amended): if a date key fails to parse as an integer, the
run aborts during the date loop: the failing key's page and every
later-iterated date page are never created, and the dates-by-recency
line is never written to the master index; however the tag pages and
the date pages of earlier-iterated keys are already finalized, and the
master index file holds exactly the content written before the Dates
summary. -/
theorem claim_C5_abort (tags pre post : List (String × List NodeRef))
    (d : String) (ps : List NodeRef)
    (hpre : ∀ p ∈ pre, (parseUsize p.1).isSome)
    (hbad : parseUsize d = none) :
    (renderRun tags (pre ++ (d, ps) :: post)).2 = some d ∧
    (renderRun tags (pre ++ (d, ps) :: post)).1 =
      tags.map (fun p => (p.1 ++ ".md", tagPage p.1 p.2)) ++
      pre.map (fun p => (p.1 ++ ".md", datePage p.1 p.2)) ++
      [("index.md", indexPartial tags)] := by
  unfold renderRun
  rw [renderDatesLoop_abort pre d ps post [] [] hpre hbad]
  constructor
  · rfl
  · show _ ++ ([] ++ _) ++ _ = _
    rw [List.nil_append]
    rfl

/-- Witness for claim C5: a run with one tag key, one good date key and
the unparseable date key march aborts reporting march; and a run whose
date key is a 20-digit numeral above the usize range aborts at that key
(the overflow error path of the parse). -/
theorem claim_C5_abort_witness :
    (renderRun [("a", [("f", "T", "")])]
      [("20240101", [("f", "T", "09:15")]), ("march", [("g", "U", "10:00")])]).2 =
      some "march" ∧
    (renderRun [] [("99999999999999999999", [("f", "T", "09:15")])]).2 =
      some "99999999999999999999" :=
  ⟨(claim_C5_abort [("a", [("f", "T", "")])] [("20240101", [("f", "T", "09:15")])]
    [] "march" [("g", "U", "10:00")] (by decide) (by decide)).1,
   (claim_C5_abort [] [] [] "99999999999999999999" [("f", "T", "09:15")]
     (by decide) (by decide)).1⟩

/-! ### Header extraction (read_first_5_lines, claims C6 and C10)

The function reads at most the first five lines of a document.  Line
index 1 supplies the title, a dash marker at line index 2 deletes the
file (the document keeps being processed), line index 3 supplies the
date posting and line index 4 the tags.  A Created line whose remainder
splits into no tokens exits the process, as does a Tags line with no
tokens; a Created line with exactly one token indexes full_date[1] out
of bounds, which panics.  Process exit and panic are modelled as error
values; the deletion side effect is recorded in the state. -/

/-- The abnormal terminations of read_first_5_lines. -/
inductive DocErr where
  | fatalNoCreatedTokens : DocErr
  | fatalNoTags : DocErr
  | panicIndexOOB : DocErr
deriving DecidableEq

/-- The state accumulated while scanning the header lines. -/
structure DocState where
  title : String
  deleted : Bool
  dateAdd : Option (List String × String)
  tagsAdd : Option (List String)
deriving DecidableEq

/-- The state before any line is read. -/
def initDocState : DocState :=
  { title := "", deleted := false, dateAdd := none, tagsAdd := none }

/-- Processing of one header line at its zero-based index. -/
def docStep (st : DocState) (i : Nat) (line : String) : Except DocErr DocState :=
  let st1 := if i = 1 ∧ startsWithM line "Title: " = true then
    { st with title := stripPrefixM line "Title: " } else st
  let st2 := if i = 2 ∧ startsWithM line "---" = true then
    { st1 with deleted := true } else st1
  if i = 3 ∧ startsWithM line "Created:" = true then
    match splitWhitespaceM (stripPrefixM line "Created:") with
    | [] => Except.error DocErr.fatalNoCreatedTokens
    | [_] => Except.error DocErr.panicIndexOOB
    | dk :: lt :: _ => Except.ok { st2 with dateAdd := some ([dk], lt) }
  else if i = 4 ∧ startsWithM line "Tags:" = true then
    match splitWhitespaceM (stripPrefixM line "Tags:") with
    | [] => Except.error DocErr.fatalNoTags
    | ts => Except.ok { st2 with tagsAdd := some ts }
  else Except.ok st2

/-- read_first_5_lines on the document's lines: the loop body runs for
the first five lines and stops early on exit or panic. -/
def processDoc (lines : List String) : Except DocErr DocState :=
  (lines.take 5).enum.foldlM (fun st p => docStep st p.1 p.2) initDocState

/-- The document's effect on the two indexes: on success the date
posting (key vector, time of day) and the tag keys are added with the
extracted title; an abnormal termination yields no updated indexes. -/
def runDoc (fname : String) (lines : List String) (dIdx tIdx : Index) :
    Except DocErr (Index × Index) :=
  match processDoc lines with
  | Except.error e => Except.error e
  | Except.ok r =>
    Except.ok
      ((match r.dateAdd with
        | some (dks, lt) => dIdx.add_node fname r.title lt dks
        | none => dIdx),
       (match r.tagsAdd with
        | some ts => tIdx.add_node fname r.title "" ts
        | none => tIdx))

/-- The title recorded for a document whose second line is l1. -/
def titleOf (l1 : String) : String :=
  if startsWithM l1 "Title: " = true then stripPrefixM l1 "Title: " else ""

/-! ### Prefix and token computation lemmas -/

theorem startsWithM_append (p s : String) : startsWithM (p ++ s) p = true := by
  unfold startsWithM
  rw [String.data_append]
  exact List.isPrefixOf_iff_prefix.mpr (List.prefix_append p.data s.data)

theorem stripPrefixM_append (p s : String) : stripPrefixM (p ++ s) p = s := by
  unfold stripPrefixM
  rw [String.data_append, List.drop_left]

theorem splitWSAux_nonws_run :
    ∀ (tok : List Char), (∀ c ∈ tok, c.isWhitespace = false) →
      ∀ (rest acc : List Char),
        splitWSAux (tok ++ rest) acc = splitWSAux rest (tok.reverse ++ acc) := by
  intro tok
  induction tok with
  | nil =>
    intro _ rest acc
    simp
  | cons c tok ih =>
    intro htok rest acc
    show splitWSAux (c :: (tok ++ rest)) acc = _
    rw [show splitWSAux (c :: (tok ++ rest)) acc =
      if c.isWhitespace = true then
        (if acc.isEmpty = true then splitWSAux (tok ++ rest) []
         else String.mk acc.reverse :: splitWSAux (tok ++ rest) [])
      else splitWSAux (tok ++ rest) (c :: acc) from rfl]
    rw [if_neg (by rw [htok c (by simp)]; exact Bool.false_ne_true)]
    rw [ih (fun c' hc' => htok c' (by simp [hc'])) rest (c :: acc)]
    congr 1
    simp

theorem splitWSAux_ws_cons (c : Char) (rest acc : List Char) (hc : c.isWhitespace = true) :
    splitWSAux (c :: rest) acc =
      if acc.isEmpty = true then splitWSAux rest []
      else String.mk acc.reverse :: splitWSAux rest [] := by
  rw [show splitWSAux (c :: rest) acc =
    if c.isWhitespace = true then
      (if acc.isEmpty = true then splitWSAux rest []
       else String.mk acc.reverse :: splitWSAux rest [])
    else splitWSAux rest (c :: acc) from rfl]
  rw [if_pos hc]

theorem reverse_isEmpty_false (l : List Char) (h : l ≠ []) :
    l.reverse.isEmpty = false := by
  cases hrev : l.reverse with
  | nil => exact absurd (by simpa using hrev) h
  | cons a t => rfl

theorem splitWSAux_final (tok : List Char) (htok : ∀ c ∈ tok, c.isWhitespace = false)
    (hne : tok ≠ []) : splitWSAux tok [] = [String.mk tok] := by
  have h := splitWSAux_nonws_run tok htok [] []
  simp only [List.append_nil] at h
  rw [h]
  rw [show splitWSAux [] tok.reverse =
    (if tok.reverse.isEmpty = true then [] else [String.mk tok.reverse.reverse]) from rfl]
  rw [if_neg (by rw [reverse_isEmpty_false tok hne]; exact Bool.false_ne_true)]
  rw [List.reverse_reverse]

theorem splitWS_sep_one (tg : String) (htg : goodToken tg) :
    splitWhitespaceM (" " ++ tg) = [tg] := by
  unfold splitWhitespaceM
  have hdata : (" " ++ tg).data = ' ' :: tg.data := by
    simp [String.data_append]
  have h0 : (([] : List Char).isEmpty = true) := rfl
  rw [hdata, splitWSAux_ws_cons ' ' tg.data [] (by decide), if_pos h0]
  exact splitWSAux_final tg.data htg.2 htg.1

theorem splitWS_sep_two (dk lt : String) (hdk : goodToken dk) (hlt : goodToken lt) :
    splitWhitespaceM (" " ++ dk ++ " " ++ lt) = [dk, lt] := by
  unfold splitWhitespaceM
  have hdata : (" " ++ dk ++ " " ++ lt).data = ' ' :: (dk.data ++ (' ' :: lt.data)) := by
    simp [String.data_append]
  have h0 : (([] : List Char).isEmpty = true) := rfl
  rw [hdata, splitWSAux_ws_cons ' ' _ [] (by decide), if_pos h0]
  rw [splitWSAux_nonws_run dk.data hdk.2 (' ' :: lt.data) [], List.append_nil]
  rw [splitWSAux_ws_cons ' ' lt.data dk.data.reverse (by decide)]
  rw [if_neg (by rw [reverse_isEmpty_false dk.data hdk.1]; exact Bool.false_ne_true)]
  rw [List.reverse_reverse]
  rw [splitWSAux_final lt.data hlt.2 hlt.1]

/-! ### Evaluation of the per-line steps -/

theorem except_bind_ok {α β : Type} (a : α) (f : α → Except DocErr β) :
    (Except.ok a >>= f) = f a := rfl

theorem except_pure_eq {α : Type} (a : α) :
    (pure a : Except DocErr α) = Except.ok a := rfl

theorem except_bind_err {α β : Type} (e : DocErr) (f : α → Except DocErr β) :
    ((Except.error e : Except DocErr α) >>= f) = Except.error e := rfl

theorem docStep_zero (st : DocState) (l : String) : docStep st 0 l = Except.ok st := by
  unfold docStep
  simp

theorem docStep_one (st : DocState) (l : String) :
    docStep st 1 l = Except.ok
      (if startsWithM l "Title: " = true then
        { st with title := stripPrefixM l "Title: " } else st) := by
  unfold docStep
  by_cases h : startsWithM l "Title: " = true <;> simp [h]

theorem docStep_two (st : DocState) (l : String) :
    docStep st 2 l = Except.ok
      (if startsWithM l "---" = true then { st with deleted := true } else st) := by
  unfold docStep
  by_cases h : startsWithM l "---" = true <;> simp [h]

theorem docStep_three_no (st : DocState) (l : String)
    (h : startsWithM l "Created:" = false) : docStep st 3 l = Except.ok st := by
  unfold docStep
  simp [h]

theorem docStep_three_yes (st : DocState) (l : String)
    (h : startsWithM l "Created:" = true) :
    docStep st 3 l =
      (match splitWhitespaceM (stripPrefixM l "Created:") with
       | [] => Except.error DocErr.fatalNoCreatedTokens
       | [_] => Except.error DocErr.panicIndexOOB
       | dk :: lt :: _ => Except.ok { st with dateAdd := some ([dk], lt) }) := by
  unfold docStep
  simp [h]

theorem docStep_four_no (st : DocState) (l : String)
    (h : startsWithM l "Tags:" = false) : docStep st 4 l = Except.ok st := by
  unfold docStep
  simp [h]

theorem docStep_four_yes (st : DocState) (l : String)
    (h : startsWithM l "Tags:" = true) :
    docStep st 4 l =
      (match splitWhitespaceM (stripPrefixM l "Tags:") with
       | [] => Except.error DocErr.fatalNoTags
       | ts => Except.ok { st with tagsAdd := some ts }) := by
  unfold docStep
  simp [h]

theorem processDoc_eq5 (l0 l1 l2 l3 l4 : String) :
    processDoc [l0, l1, l2, l3, l4] =
      (docStep initDocState 0 l0 >>= fun s1 =>
        docStep s1 1 l1 >>= fun s2 =>
          docStep s2 2 l2 >>= fun s3 =>
            docStep s3 3 l3 >>= fun s4 =>
              docStep s4 4 l4 >>= fun s5 => pure s5) := rfl

theorem processDoc_eq4 (l0 l1 l2 cl : String) (rest : List String) :
    processDoc (l0 :: l1 :: l2 :: cl :: rest) =
      (docStep initDocState 0 l0 >>= fun s1 =>
        docStep s1 1 l1 >>= fun s2 =>
          docStep s2 2 l2 >>= fun s3 =>
            docStep s3 3 cl >>= fun s4 =>
              (List.enumFrom 4 (rest.take 1)).foldlM
                (fun st p => docStep st p.1 p.2) s4) := rfl

/-! ### Claim C6 -/

/-- Claim C6: a missing expected header field on the expected line is
recoverable per-document.  A document whose fifth line does not carry
the Tags field still contributes its date entry to the date index and
processing returns normally with the tag index untouched; symmetrically,
a document whose fourth line does not carry the Created field still
contributes its tags to the tag index with the date index untouched. -/
theorem claim_C6_missing_field_recoverable :
    (∀ (l0 l1 l2 l4 dk lt fname : String) (dIdx tIdx : Index),
      startsWithM l4 "Tags:" = false →
      goodToken dk → goodToken lt →
      runDoc fname [l0, l1, l2, "Created: " ++ dk ++ " " ++ lt, l4] dIdx tIdx =
        Except.ok (dIdx.add_node fname (titleOf l1) lt [dk], tIdx)) ∧
    (∀ (l0 l1 l2 l3 tg fname : String) (dIdx tIdx : Index),
      startsWithM l3 "Created:" = false →
      goodToken tg →
      runDoc fname [l0, l1, l2, l3, "Tags: " ++ tg] dIdx tIdx =
        Except.ok (dIdx, tIdx.add_node fname (titleOf l1) "" [tg])) := by
  constructor
  · intro l0 l1 l2 l4 dk lt fname dIdx tIdx h4 hdk hlt
    have hre : ("Created: " ++ dk ++ " " ++ lt) = "Created:" ++ (" " ++ dk ++ " " ++ lt) := by
      apply String.ext
      simp [String.data_append]
    have hstart : startsWithM ("Created: " ++ dk ++ " " ++ lt) "Created:" = true := by
      rw [hre]
      exact startsWithM_append _ _
    have hsplit : splitWhitespaceM
        (stripPrefixM ("Created: " ++ dk ++ " " ++ lt) "Created:") = [dk, lt] := by
      rw [hre, stripPrefixM_append]
      exact splitWS_sep_two dk lt hdk hlt
    have hp : processDoc [l0, l1, l2, "Created: " ++ dk ++ " " ++ lt, l4] =
        Except.ok { title := titleOf l1,
                    deleted := startsWithM l2 "---",
                    dateAdd := some ([dk], lt), tagsAdd := none } := by
      rw [processDoc_eq5]
      simp only [docStep_zero, docStep_one, docStep_two, except_bind_ok,
        docStep_three_yes _ _ hstart, hsplit, docStep_four_no _ _ h4]
      by_cases h1 : startsWithM l1 "Title: " = true <;>
        by_cases h2 : startsWithM l2 "---" = true <;>
          simp [h1, h2, titleOf, initDocState, except_pure_eq]
    unfold runDoc
    rw [hp]
  · intro l0 l1 l2 l3 tg fname dIdx tIdx h3 htg
    have hre : ("Tags: " ++ tg) = "Tags:" ++ (" " ++ tg) := by
      apply String.ext
      simp [String.data_append]
    have hstart : startsWithM ("Tags: " ++ tg) "Tags:" = true := by
      rw [hre]
      exact startsWithM_append _ _
    have hsplit : splitWhitespaceM (stripPrefixM ("Tags: " ++ tg) "Tags:") = [tg] := by
      rw [hre, stripPrefixM_append]
      exact splitWS_sep_one tg htg
    have hp : processDoc [l0, l1, l2, l3, "Tags: " ++ tg] =
        Except.ok { title := titleOf l1,
                    deleted := startsWithM l2 "---",
                    dateAdd := none, tagsAdd := some [tg] } := by
      rw [processDoc_eq5]
      simp only [docStep_zero, docStep_one, docStep_two, except_bind_ok,
        docStep_three_no _ _ h3, docStep_four_yes _ _ hstart, hsplit]
      by_cases h1 : startsWithM l1 "Title: " = true <;>
        by_cases h2 : startsWithM l2 "---" = true <;>
          simp [h1, h2, titleOf, initDocState, except_pure_eq]
    unfold runDoc
    rw [hp]

/-- Witness for claim C6: a document with Title, a well-formed Created
line and a fifth line without the Tags field adds exactly its date
posting and leaves the tag index unchanged. -/
theorem claim_C6_missing_field_recoverable_witness :
    runDoc "doc1" ["---", "Title: X", "x", "Created: 20240101 09:15", "body"]
      Index.new Index.new =
      Except.ok (Index.new.add_node "doc1" "X" "09:15" ["20240101"], Index.new) := by
  have h := claim_C6_missing_field_recoverable.1 "---" "Title: X" "x" "body"
    "20240101" "09:15" "doc1" Index.new Index.new (by decide) (by decide) (by decide)
  rw [show ("Created: " ++ "20240101" ++ " " ++ "09:15" : String) =
    "Created: 20240101 09:15" from by decide] at h
  rw [show titleOf "Title: X" = "X" from by decide] at h
  exact h

/-! ### Claim C10 -/

theorem tail_no_panic (s4 : DocState) (rest : List String) :
    ¬ ((List.enumFrom 4 (rest.take 1)).foldlM (fun st p => docStep st p.1 p.2) s4 =
      Except.error DocErr.panicIndexOOB) := by
  cases rest with
  | nil =>
    intro h
    rw [show (List.enumFrom 4 (([] : List String).take 1)).foldlM
      (fun st p => docStep st p.1 p.2) s4 = Except.ok s4 from rfl] at h
    exact Except.noConfusion h
  | cons x xs =>
    intro h
    rw [show (List.enumFrom 4 ((x :: xs).take 1)).foldlM (fun st p => docStep st p.1 p.2) s4
      = (docStep s4 4 x >>= fun s5 => pure s5) from rfl] at h
    by_cases h4 : startsWithM x "Tags:" = true
    · rw [docStep_four_yes _ _ h4] at h
      cases hsp : splitWhitespaceM (stripPrefixM x "Tags:") with
      | nil =>
        rw [hsp] at h
        simp at h
      | cons a l =>
        rw [hsp] at h
        simp at h
    · have h4' : startsWithM x "Tags:" = false := by
        cases hb : startsWithM x "Tags:" with
        | true => exact absurd hb h4
        | false => rfl
      rw [docStep_four_no _ _ h4'] at h
      simp at h

theorem processDoc_short_ok (lines : List String) (hlen : lines.length ≤ 3) (e : DocErr)
    (h : processDoc lines = Except.error e) : False := by
  rcases lines with _ | ⟨l0, _ | ⟨l1, _ | ⟨l2, _ | ⟨l3, rest⟩⟩⟩⟩
  · exact Except.noConfusion h
  · rw [show processDoc [l0] =
      (docStep initDocState 0 l0 >>= fun s1 => pure s1) from rfl] at h
    rw [docStep_zero, except_bind_ok, except_pure_eq] at h
    exact Except.noConfusion h
  · rw [show processDoc [l0, l1] =
      (docStep initDocState 0 l0 >>= fun s1 => docStep s1 1 l1 >>= fun s2 => pure s2)
      from rfl] at h
    rw [docStep_zero, except_bind_ok, docStep_one, except_bind_ok, except_pure_eq] at h
    exact Except.noConfusion h
  · rw [show processDoc [l0, l1, l2] =
      (docStep initDocState 0 l0 >>= fun s1 => docStep s1 1 l1 >>= fun s2 =>
        docStep s2 2 l2 >>= fun s3 => pure s3) from rfl] at h
    rw [docStep_zero, except_bind_ok, docStep_one, except_bind_ok, docStep_two,
      except_bind_ok, except_pure_eq] at h
    exact Except.noConfusion h
  · simp at hlen

/-- Claim C10: header extraction reads the second whitespace token of a
Created line unconditionally after checking only nonemptiness, so a
Created line at the expected position with exactly one token makes
extraction hit the out-of-bounds index (modelled as the panic error)
instead of recording a date posting or taking the fatal exit; and this
is the only way the panic can arise, so extraction is panic-free exactly
when any Created line at that position has zero or at least two tokens. -/
theorem claim_C10_created_single_token_panic :
    (∀ (l0 l1 l2 cl : String) (rest : List String),
      startsWithM cl "Created:" = true →
      (splitWhitespaceM (stripPrefixM cl "Created:")).length = 1 →
      processDoc (l0 :: l1 :: l2 :: cl :: rest) = Except.error DocErr.panicIndexOOB) ∧
    (∀ lines : List String,
      processDoc lines = Except.error DocErr.panicIndexOOB →
      ∃ l0 l1 l2 cl rest, lines = l0 :: l1 :: l2 :: cl :: rest ∧
        startsWithM cl "Created:" = true ∧
        (splitWhitespaceM (stripPrefixM cl "Created:")).length = 1) := by
  constructor
  · intro l0 l1 l2 cl rest hcl hlen
    obtain ⟨t, ht⟩ := List.length_eq_one.mp hlen
    rw [processDoc_eq4]
    simp only [docStep_zero, docStep_one, docStep_two, except_bind_ok,
      docStep_three_yes _ _ hcl, ht, except_bind_err]
  · intro lines hp
    rcases lines with _ | ⟨l0, _ | ⟨l1, _ | ⟨l2, _ | ⟨cl, rest⟩⟩⟩⟩
    · exact absurd hp (fun h => processDoc_short_ok [] (by simp) _ h)
    · exact absurd hp (fun h => processDoc_short_ok [l0] (by simp) _ h)
    · exact absurd hp (fun h => processDoc_short_ok [l0, l1] (by simp) _ h)
    · exact absurd hp (fun h => processDoc_short_ok [l0, l1, l2] (by simp) _ h)
    · rw [processDoc_eq4] at hp
      simp only [docStep_zero, docStep_one, docStep_two, except_bind_ok] at hp
      by_cases hcl : startsWithM cl "Created:" = true
      · rw [docStep_three_yes _ _ hcl] at hp
        cases hsp : splitWhitespaceM (stripPrefixM cl "Created:") with
        | nil =>
          rw [hsp] at hp
          simp [except_bind_err] at hp
        | cons t ts =>
          cases ts with
          | nil =>
            exact ⟨l0, l1, l2, cl, rest, rfl, hcl, by rw [hsp]; rfl⟩
          | cons t2 ts2 =>
            rw [hsp] at hp
            simp only [except_bind_ok] at hp
            exact absurd hp (tail_no_panic _ rest)
      · have hcl' : startsWithM cl "Created:" = false := by
          cases hb : startsWithM cl "Created:" with
          | true => exact absurd hb hcl
          | false => rfl
        rw [docStep_three_no _ _ hcl', except_bind_ok] at hp
        exact absurd hp (tail_no_panic _ rest)

/-- Witness for claim C10: a Created line carrying a date but no time
panics with the out-of-bounds index. -/
theorem claim_C10_created_single_token_panic_witness :
    processDoc ["---", "Title: X", "x", "Created: 20240101", ""] =
      Except.error DocErr.panicIndexOOB :=
  claim_C10_created_single_token_panic.1 "---" "Title: X" "x" "Created: 20240101" [""]
    (by decide) (by decide)

